import Mathlib

/-!
Shallow embedding of the audio-to-MEI alignment pipeline
(`src/main.py` and `src/mei.py`).

Modelling conventions:
* Tick values (`midi.date`, `midi.dur`) are integers per the data model
  ("integer tick"), so they are embedded as `Nat`.  Python's
  `int(x / y)` on nonnegative values is `Nat` division (floor), and
  `math.floor` / `math.ceil` of `a / b` are `a / b` and
  `(a + (b - 1)) / b` on `Nat` (for `b > 0`); supporting lemmas below
  relate these to `Nat.floor` / `Nat.ceil` over `ℚ`.
* Audio quantities (sample counts, rates, seconds) are embedded as `ℚ`
  (exact arithmetic in place of IEEE floats: the claims under study are
  structural, not about float rounding).
* Python `dict`s are embedded as association lists with
  assign-overwrites-in-place semantics (`assocSet`), which preserves
  insertion order exactly as CPython does.
* A stage that can raise (`KeyError`, `ZeroDivisionError`) is embedded
  as an `Option`-returning function, `none` meaning the stage dies.
* The XML document of `get_measure_timestamps` is abstracted by an
  oracle `findMeasure : String → Option MeasureInfo` giving, for a
  note/rest id, the enclosing `measure` element (its `n` attribute and
  `xml:id`) selected by the XPath ancestor query, or `none` when the
  query returns no measure.
-/

namespace AudioMei

/-! ## Association lists with Python-dict assignment semantics -/

/-- `assocFind l k` is lookup on an association list: the value of the
first pair whose key is `k` (Python `d[k]`, as `Option`). -/
def assocFind {α β : Type} [DecidableEq α] : List (α × β) → α → Option β
  | [], _ => none
  | (k', v) :: rest, k => if k' = k then some v else assocFind rest k

/-- `assocSet l k v` is Python `d[k] = v` on a dict represented as an
association list: replace the value at the first occurrence of `k`
in place, or append `(k, v)` when `k` is absent. -/
def assocSet {α β : Type} [DecidableEq α] : List (α × β) → α → β → List (α × β)
  | [], k, v => [(k, v)]
  | (k', v') :: rest, k, v =>
      if k' = k then (k, v) :: rest else (k', v') :: assocSet rest k v

theorem assocSet_of_find_none {α β : Type} [DecidableEq α] {l : List (α × β)} {k : α} (v : β)
    (h : assocFind l k = none) : assocSet l k v = l ++ [(k, v)] := by
  induction l with
  | nil => rfl
  | cons p rest ih =>
      obtain ⟨k', v'⟩ := p
      by_cases hk : k' = k
      · simp [assocFind, hk] at h
      · simp only [assocFind, if_neg hk] at h
        simp [assocSet, hk, ih h]

theorem assocFind_assocSet_self {α β : Type} [DecidableEq α]
    (l : List (α × β)) (k : α) (v : β) :
    assocFind (assocSet l k v) k = some v := by
  induction l with
  | nil => simp [assocSet, assocFind]
  | cons p rest ih =>
      obtain ⟨k', v'⟩ := p
      by_cases hk : k' = k
      · simp [assocSet, hk, assocFind]
      · simp [assocSet, hk, assocFind, ih]

theorem assocFind_assocSet_ne {α β : Type} [DecidableEq α]
    (l : List (α × β)) {k k' : α} (v : β)
    (h : k' ≠ k) : assocFind (assocSet l k v) k' = assocFind l k' := by
  have h' : ¬k = k' := fun hh => h hh.symm
  induction l with
  | nil => simp [assocSet, assocFind, h']
  | cons p rest ih =>
      obtain ⟨ka, va⟩ := p
      by_cases hk : ka = k
      · subst hk
        simp [assocSet, assocFind, h']
      · by_cases hk' : ka = k'
        · simp [assocSet, hk, assocFind, hk', h', h]
        · simp [assocSet, hk, assocFind, hk', ih]

theorem assocFind_eq_none_iff {α β : Type} [DecidableEq α] (l : List (α × β)) (k : α) :
    assocFind l k = none ↔ k ∉ l.map Prod.fst := by
  induction l with
  | nil => simp [assocFind]
  | cons p rest ih =>
      obtain ⟨k', v⟩ := p
      by_cases hk : k' = k
      · simp [assocFind, hk]
      · have hk2 : ¬k = k' := fun hh => hk hh.symm
        simp [assocFind, hk, hk2, ih]

theorem mem_of_assocFind_eq_some {α β : Type} [DecidableEq α]
    {l : List (α × β)} {k : α} {v : β}
    (h : assocFind l k = some v) : (k, v) ∈ l := by
  induction l with
  | nil => simp [assocFind] at h
  | cons p rest ih =>
      obtain ⟨k', v'⟩ := p
      by_cases hk : k' = k
      · subst hk
        simp [assocFind] at h
        simp [h]
      · simp only [assocFind, if_neg hk] at h
        exact List.mem_cons_of_mem _ (ih h)

theorem assocFind_eq_of_mem_nodup {α β : Type} [DecidableEq α]
    {l : List (α × β)} {k : α} {v : β}
    (hnd : (l.map Prod.fst).Nodup) (h : (k, v) ∈ l) : assocFind l k = some v := by
  induction l with
  | nil => simp at h
  | cons p rest ih =>
      obtain ⟨k', v'⟩ := p
      simp only [List.map_cons, List.nodup_cons] at hnd
      rcases List.mem_cons.1 h with h1 | h1
      · rw [Prod.ext_iff] at h1
        obtain ⟨hk, hv⟩ := h1
        subst hk
        subst hv
        simp [assocFind]
      · have hk : k' ≠ k := by
          intro hk
          exact hnd.1 (hk ▸ (List.mem_map.2 ⟨(k, v), h1, rfl⟩))
        simp only [assocFind, if_neg hk]
        exact ih hnd.2 h1

theorem mem_assocSet {α β : Type} [DecidableEq α]
    {l : List (α × β)} {k : α} {v : β} {x : α × β}
    (h : x ∈ assocSet l k v) : x ∈ l ∨ x = (k, v) := by
  induction l with
  | nil => simp [assocSet] at h; simp [h]
  | cons p rest ih =>
      obtain ⟨k', v'⟩ := p
      by_cases hk : k' = k
      · simp only [assocSet, if_pos hk] at h
        rcases List.mem_cons.1 h with h1 | h1
        · right; exact h1
        · left; exact List.mem_cons_of_mem _ h1
      · simp only [assocSet, if_neg hk] at h
        rcases List.mem_cons.1 h with h1 | h1
        · left; simp [h1]
        · rcases ih h1 with h2 | h2
          · left; exact List.mem_cons_of_mem _ h2
          · right; exact h2

theorem mem_assocSet_nodup {α β : Type} [DecidableEq α]
    {l : List (α × β)} {k : α} {v : β} {x : α × β}
    (hnd : (l.map Prod.fst).Nodup) (h : x ∈ assocSet l k v) :
    (x ∈ l ∧ x.1 ≠ k) ∨ x = (k, v) := by
  induction l with
  | nil => simp [assocSet] at h; right; simp [h]
  | cons p rest ih =>
      obtain ⟨k', v'⟩ := p
      simp only [List.map_cons, List.nodup_cons] at hnd
      by_cases hk : k' = k
      · subst hk
        simp only [assocSet, if_pos rfl] at h
        rcases List.mem_cons.1 h with h1 | h1
        · right; exact h1
        · left
          refine ⟨List.mem_cons_of_mem _ h1, ?_⟩
          intro hx
          exact hnd.1 (hx ▸ (List.mem_map.2 ⟨x, h1, rfl⟩))
      · simp only [assocSet, if_neg hk] at h
        rcases List.mem_cons.1 h with h1 | h1
        · left
          refine ⟨by simp [h1], ?_⟩
          rw [h1]
          exact hk
        · rcases ih hnd.2 h1 with ⟨h2, h3⟩ | h2
          · exact Or.inl ⟨List.mem_cons_of_mem _ h2, h3⟩
          · exact Or.inr h2

theorem keys_assocSet_nodup {α β : Type} [DecidableEq α]
    {l : List (α × β)} (k : α) (v : β)
    (hnd : (l.map Prod.fst).Nodup) : ((assocSet l k v).map Prod.fst).Nodup := by
  induction l with
  | nil => simp [assocSet]
  | cons p rest ih =>
      obtain ⟨k', v'⟩ := p
      simp only [List.map_cons, List.nodup_cons] at hnd
      by_cases hk : k' = k
      · simp only [assocSet, if_pos hk, List.map_cons, List.nodup_cons]
        exact ⟨hk ▸ hnd.1, hnd.2⟩
      · simp only [assocSet, if_neg hk, List.map_cons, List.nodup_cons]
        refine ⟨?_, ih hnd.2⟩
        intro hmem
        rcases List.mem_map.1 hmem with ⟨x, hx, hfst⟩
        rcases mem_assocSet hx with h1 | h1
        · exact hnd.1 (hfst ▸ List.mem_map.2 ⟨x, h1, rfl⟩)
        · exact hk (by rw [h1] at hfst; exact hfst ▸ rfl)

theorem assocFind_append {α β : Type} [DecidableEq α] (l₁ l₂ : List (α × β)) (k : α) :
    assocFind (l₁ ++ l₂) k = (assocFind l₁ k).or (assocFind l₂ k) := by
  induction l₁ with
  | nil => simp [assocFind]
  | cons p rest ih =>
      obtain ⟨k', v⟩ := p
      by_cases hk : k' = k
      · simp [assocFind, hk]
      · simp [assocFind, hk, ih]

/-! ## Alignment Engine: warp path folded into a dict (src/main.py:62-63)

`path_dict = dict-comprehension over path` iterates the path pairs in
order; assigning an existing key overwrites its value, so the dict
retains, for each score column, the audio column of the last pair
visited. -/

/-- One step of the dict comprehension of src/main.py:63: bind
`key := value`, overwriting any earlier binding of `key`. -/
def dictStep (d : Nat → Option Nat) (kv : Nat × Nat) : Nat → Option Nat :=
  fun k => if k = kv.1 then some kv.2 else d k

/-- `path_dict` (src/main.py:63): fold the warp-path pairs into a
score-column → audio-column map, later assignments overwriting earlier
ones. -/
def pathToDict (path : List (Nat × Nat)) : Nat → Option Nat :=
  path.foldl dictStep (fun _ => none)

theorem foldl_dictStep (path : List (Nat × Nat)) (d : Nat → Option Nat) (k : Nat) :
    (path.foldl dictStep d) k = (assocFind path.reverse k).or (d k) := by
  induction path generalizing d with
  | nil => simp [assocFind]
  | cons kv rest ih =>
      simp only [List.foldl_cons, List.reverse_cons, ih, assocFind_append, Option.or_assoc]
      congr 1
      obtain ⟨a, b⟩ := kv
      by_cases hk : k = a
      · simp [assocFind, dictStep, hk]
      · have hk2 : ¬a = k := fun hh => hk hh.symm
        simp [assocFind, dictStep, hk, hk2]

/-- Claim C9: the warp-path dict keeps, for each score column `k`, the
audio column of the last pair of the path carrying score column `k`
(Python dict-comprehension last-wins semantics); score columns absent
from the path stay unmapped.  `assocFind` on the reversed path is
exactly the binding of the last matching pair of the original path. -/
theorem pathToDict_last_wins (path : List (Nat × Nat)) (k : Nat) :
    pathToDict path k = assocFind path.reverse k := by
  rw [pathToDict, foldl_dictStep]
  simp

/-! ## Timestamp Mapper (src/main.py:74-82, step 4)

`chroma_length = len(audio_data) / frame_rate / chroma_audio.shape[1]`,
then for every `id` of `id_to_chroma_index`:
`id_to_time[id] = path_dict[id_to_chroma_index[id]] * chroma_length`
followed by `id_to_time[id] += trim_start / 1000`.  A missing key in
`path_dict` raises `KeyError`, which the surrounding handler turns into
`sys.exit(1)`: the stage produces no output at all in that case. -/

/-- Seconds covered by one audio chroma column
(`len(audio_data) / frame_rate / chroma_audio.shape[1]`,
src/main.py:75). -/
def chromaColumnSeconds (audioLen frameRate audioCols : ℚ) : ℚ :=
  audioLen / frameRate / audioCols

/-- The step-4 loop of src/main.py:76-78: map every
`(identifier, score_column)` pair to
`(identifier, path_dict[score_column] * chroma_length + trim_start / 1000)`;
a score column missing from `path_dict` kills the whole stage
(`KeyError` → `sys.exit(1)`), modelled as `none`. -/
def idTimesLoop (pathDict : Nat → Option Nat) (chromaLength trimStart : ℚ) :
    List (String × Nat) → Option (List (String × ℚ))
  | [] => some []
  | kv :: rest =>
    match pathDict kv.2 with
    | none => none
    | some audioCol =>
      match idTimesLoop pathDict chromaLength trimStart rest with
      | none => none
      | some out => some ((kv.1, (audioCol : ℚ) * chromaLength + trimStart / 1000) :: out)

/-- Step 4 of src/main.py (`id_to_time` construction). -/
def buildIdToTime (idToIndex : List (String × Nat)) (pathDict : Nat → Option Nat)
    (audioLen frameRate audioCols trimStart : ℚ) : Option (List (String × ℚ)) :=
  idTimesLoop pathDict (chromaColumnSeconds audioLen frameRate audioCols) trimStart idToIndex

/-- Claim C8: whenever every score column of the identifier map is
present in the warp-path dict, the Timestamp Mapper succeeds and
assigns each identifier the time
`audio_column * ((sample_count / sample_rate) / audio_column_count)
 + trim_start_ms / 1000`; and whenever some identifier's score column
is absent from the dict, the stage fails (produces no mapping). -/
theorem timestamp_mapper_spec (idToIndex : List (String × Nat))
    (pathDict : Nat → Option Nat) (audioLen frameRate audioCols trimStart : ℚ) :
    ((∀ kv ∈ idToIndex, (pathDict kv.2).isSome) →
      buildIdToTime idToIndex pathDict audioLen frameRate audioCols trimStart =
        some (idToIndex.map (fun kv =>
          (kv.1, (((pathDict kv.2).getD 0 : Nat) : ℚ) *
              ((audioLen / frameRate) / audioCols) + trimStart / 1000)))) ∧
    ((∃ kv ∈ idToIndex, pathDict kv.2 = none) →
      buildIdToTime idToIndex pathDict audioLen frameRate audioCols trimStart = none) := by
  constructor
  · intro h
    rw [buildIdToTime]
    induction idToIndex with
    | nil => simp [idTimesLoop]
    | cons kv rest ih =>
        have hkv : (pathDict kv.2).isSome := h kv (List.mem_cons_self kv rest)
        rcases Option.isSome_iff_exists.1 hkv with ⟨ac, hac⟩
        have hrest := ih (fun x hx => h x (List.mem_cons_of_mem _ hx))
        rw [List.map_cons]
        rw [idTimesLoop, hac, hrest]
        simp [hac, chromaColumnSeconds]
  · intro h
    rw [buildIdToTime]
    induction idToIndex with
    | nil => simp at h
    | cons kv rest ih =>
        rcases h with ⟨x, hx, hnone⟩
        rcases List.mem_cons.1 hx with h1 | h1
        · subst h1
          rw [idTimesLoop, hnone]
        · rw [idTimesLoop]
          rcases hpd : pathDict kv.2 with _ | ac
          · rfl
          · rw [ih ⟨x, h1, hnone⟩]

/-- Witness for C8: a two-entry identifier map, one run with a total
warp dict (exact times computed), one with a gap (stage dies). -/
theorem timestamp_mapper_spec_witness :
    buildIdToTime [("n1", 0), ("n2", 1)]
        (fun k => if k ≤ 1 then some (2 * k) else none) 8 2 4 500 =
      some [("n1", (0 : ℚ) * ((8 / 2) / 4) + 500 / 1000),
            ("n2", (2 : ℚ) * ((8 / 2) / 4) + 500 / 1000)] ∧
    buildIdToTime [("n1", 0), ("n2", 5)]
        (fun k => if k ≤ 1 then some (2 * k) else none) 8 2 4 500 = none := by
  constructor
  · rw [(timestamp_mapper_spec [("n1", 0), ("n2", 1)]
        (fun k => if k ≤ 1 then some (2 * k) else none) 8 2 4 500).1 (by decide)]
    norm_num
  · exact (timestamp_mapper_spec [("n1", 0), ("n2", 5)]
        (fun k => if k ≤ 1 then some (2 * k) else none) 8 2 4 500).2
        ⟨("n2", 5), by simp, by norm_num⟩

/-! ## Measure Aggregator, lookup step (src/mei.py:109-154)

`get_measure_timestamps` walks the keys of the timestamp dictionary,
asks the XML document for the enclosing `measure` ancestor of each key
(abstracted here as `findMeasure`), and appends a result row unless
the measure is missing, or its `n` attribute is `None`, or its
`xml:id` is `None`.  Display numbers are carried as integers (the data
model's `measure_number: integer`; the code stores the attribute
string and parses it with `int(...)` at the sort). -/

/-- The enclosing `measure` element's identifying attributes:
`n` (display number) and `xml:id`, either of which may be absent. -/
structure MeasureInfo where
  number : Option Int
  xmlId : Option String
deriving DecidableEq, Repr

/-- One output row of `get_measure_timestamps`
(src/mei.py:148-152). -/
structure MeasureEntry where
  measure_number : Int
  measure_id : String
  timestamp_sec : ℚ
deriving DecidableEq, Repr

/-- `get_measure_timestamps` (src/mei.py:109-154): for each
`(key, timestamp)` of the loaded timestamp map, look up the enclosing
measure; skip with a warning when none is found; skip with a warning
when `measure_number is None or measure_id is None`; otherwise append
one `MeasureEntry`. -/
def get_measure_timestamps (findMeasure : String → Option MeasureInfo) :
    List (String × ℚ) → List MeasureEntry
  | [] => []
  | (key, t) :: rest =>
    match findMeasure key with
    | none => get_measure_timestamps findMeasure rest
    | some m =>
      match m.number, m.xmlId with
      | some n, some i =>
          ⟨n, i, t⟩ :: get_measure_timestamps findMeasure rest
      | _, _ => get_measure_timestamps findMeasure rest

/-- Keep-decision as the code actually makes it: an entry survives iff
a measure is found and it has an `n` attribute and it has an `xml:id`
(either one missing drops the entry). -/
def keptEntry (findMeasure : String → Option MeasureInfo) (kv : String × ℚ) : Bool :=
  match findMeasure kv.1 with
  | none => false
  | some m => m.number.isSome && m.xmlId.isSome

/-- The row built from a kept entry. -/
def entryOf (m : MeasureInfo) (t : ℚ) : MeasureEntry :=
  ⟨m.number.getD 0, m.xmlId.getD "", t⟩

/-- Claim C4 (amended): an entry is dropped exactly when no enclosing
measure is found, **or** the measure lacks a display number, **or** it
lacks an `xml:id` (any single missing attribute drops it — not only
when both are missing).  Every kept entry produces exactly one
`MeasureEntry`, in input order. -/
theorem measure_lookup_drop_policy (findMeasure : String → Option MeasureInfo)
    (entries : List (String × ℚ)) :
    get_measure_timestamps findMeasure entries =
      (entries.filter (keptEntry findMeasure)).map
        (fun kv => entryOf ((findMeasure kv.1).getD ⟨none, none⟩) kv.2) := by
  induction entries with
  | nil => rfl
  | cons kv rest ih =>
      obtain ⟨key, t⟩ := kv
      rcases hm : findMeasure key with _ | m
      · rw [get_measure_timestamps, hm, ih]
        have : keptEntry findMeasure (key, t) = false := by
          simp [keptEntry, hm]
        rw [List.filter_cons, this]
        simp
      · rcases hn : m.number with _ | n
        · rw [get_measure_timestamps, hm]
          have : keptEntry findMeasure (key, t) = false := by
            simp [keptEntry, hm, hn]
          rw [List.filter_cons, this]
          simp [hn, ih]
        · rcases hi : m.xmlId with _ | i
          · rw [get_measure_timestamps, hm]
            have : keptEntry findMeasure (key, t) = false := by
              simp [keptEntry, hm, hi]
            rw [List.filter_cons, this]
            simp [hn, hi, ih]
          · rw [get_measure_timestamps, hm]
            have : keptEntry findMeasure (key, t) = true := by
              simp [keptEntry, hm, hn, hi]
            rw [List.filter_cons, this]
            simp [entryOf, hm, hn, hi, ih]

/-- Counterexample for C4 as stated: a measure that **has** a display
number but **lacks** an `xml:id` does not "lack both", so the claim
says the entry produces a `MeasureEntry`; the code drops it. -/
theorem measure_lookup_drop_counterexample :
    (fun _ : String => some (⟨some 3, none⟩ : MeasureInfo)) "n1" =
        some ⟨some 3, none⟩ ∧
    ¬((⟨some 3, none⟩ : MeasureInfo).number = none ∧
        (⟨some 3, none⟩ : MeasureInfo).xmlId = none) ∧
    get_measure_timestamps (fun _ => some ⟨some 3, none⟩) [("n1", 0)] = [] := by
  exact ⟨rfl, by simp, rfl⟩

/-! ## Measure Aggregator, reduction step (src/mei.py:156-178)

`filter_measures_by_tstamp` folds the rows into a dict `seen` keyed by
`measure_id`, keeping the first-seen minimum `timestamp_sec`, then
sorts `seen.values()` by `(int(measure_number), timestamp_sec)`. -/

/-- Loop body of src/mei.py:165-171: store the row under its
`measure_id` iff the id is new or the row's timestamp is strictly
smaller than the stored one. -/
def seenStep (seen : List (String × MeasureEntry)) (line : MeasureEntry) :
    List (String × MeasureEntry) :=
  match assocFind seen line.measure_id with
  | none => assocSet seen line.measure_id line
  | some cur =>
      if line.timestamp_sec < cur.timestamp_sec then
        assocSet seen line.measure_id line
      else seen

/-- The sort key comparison of src/mei.py:174: lexicographic on
`(int(measure_number), timestamp_sec)`. -/
def measureLE (a b : MeasureEntry) : Bool :=
  decide (a.measure_number < b.measure_number) ||
    (decide (a.measure_number = b.measure_number) &&
      decide (a.timestamp_sec ≤ b.timestamp_sec))

/-- `filter_measures_by_tstamp` (src/mei.py:156-178). -/
def filter_measures_by_tstamp (ms : List MeasureEntry) : List MeasureEntry :=
  ((ms.foldl seenStep []).map Prod.snd).mergeSort measureLE

theorem measureLE_trans (a b c : MeasureEntry) (hab : measureLE a b = true)
    (hbc : measureLE b c = true) : measureLE a c = true := by
  simp only [measureLE, Bool.or_eq_true, Bool.and_eq_true, decide_eq_true_eq] at *
  rcases hab with h1 | ⟨h1, h2⟩ <;> rcases hbc with h3 | ⟨h3, h4⟩
  · exact Or.inl (h1.trans h3)
  · exact Or.inl (h3 ▸ h1)
  · exact Or.inl (h1 ▸ h3)
  · exact Or.inr ⟨h1.trans h3, h2.trans h4⟩

theorem measureLE_total (a b : MeasureEntry) :
    (measureLE a b || measureLE b a) = true := by
  simp only [measureLE, Bool.or_eq_true, Bool.and_eq_true, decide_eq_true_eq]
  rcases lt_trichotomy a.measure_number b.measure_number with h | h | h
  · exact Or.inl (Or.inl h)
  · rcases le_total a.timestamp_sec b.timestamp_sec with ht | ht
    · exact Or.inl (Or.inr ⟨h, ht⟩)
    · exact Or.inr (Or.inr ⟨h.symm, ht⟩)
  · exact Or.inr (Or.inl h)

/-- Claim C7: every output of the reduction step is sorted: consecutive
entries have non-decreasing `measure_number`, and equal-numbered
consecutive entries have non-decreasing `timestamp_sec`. -/
theorem filtered_measures_sorted (ms : List MeasureEntry) :
    List.Chain' (fun a b => a.measure_number ≤ b.measure_number ∧
        (a.measure_number = b.measure_number →
          a.timestamp_sec ≤ b.timestamp_sec))
      (filter_measures_by_tstamp ms) := by
  have hp := @List.sorted_mergeSort MeasureEntry measureLE measureLE_trans measureLE_total
    ((ms.foldl seenStep []).map Prod.snd)
  refine List.Pairwise.chain' (hp.imp ?_)
  intro a b hab
  simp only [measureLE, Bool.or_eq_true, Bool.and_eq_true, decide_eq_true_eq] at hab
  rcases hab with h | ⟨h1, h2⟩
  · exact ⟨le_of_lt h, fun he => absurd he (ne_of_lt h)⟩
  · exact ⟨le_of_eq h1, fun _ => h2⟩

/-- Invariant of the `seen` fold: keys are distinct; every stored row
belongs to the processed input, sits under its own `measure_id`, and
carries the minimum timestamp among processed rows of that id; and
every processed `measure_id` is stored. -/
def SeenInv (ps : List MeasureEntry) (seen : List (String × MeasureEntry)) : Prop :=
  (seen.map Prod.fst).Nodup ∧
  (∀ kv ∈ seen, kv.2.measure_id = kv.1 ∧ kv.2 ∈ ps ∧
     ∀ x ∈ ps, x.measure_id = kv.1 → kv.2.timestamp_sec ≤ x.timestamp_sec) ∧
  (∀ x ∈ ps, (assocFind seen x.measure_id).isSome)

theorem seenStep_inv {ps : List MeasureEntry} {seen : List (String × MeasureEntry)}
    (line : MeasureEntry) (h : SeenInv ps seen) :
    SeenInv (ps ++ [line]) (seenStep seen line) := by
  obtain ⟨hnd, hval, hcov⟩ := h
  rcases hfind : assocFind seen line.measure_id with _ | cur
  · rw [seenStep, hfind]
    refine ⟨keys_assocSet_nodup _ _ hnd, ?_, ?_⟩
    · intro kv hkv
      rcases mem_assocSet hkv with h1 | h1
      · obtain ⟨ha, hb, hc⟩ := hval kv h1
        have hne : kv.1 ≠ line.measure_id := by
          intro he
          have := (assocFind_eq_none_iff seen line.measure_id).1 hfind
          exact this (he ▸ List.mem_map.2 ⟨kv, h1, rfl⟩)
        refine ⟨ha, List.mem_append_left _ hb, ?_⟩
        intro x hx hxid
        rcases List.mem_append.1 hx with h2 | h2
        · exact hc x h2 hxid
        · rw [List.mem_singleton.1 h2] at hxid
          exact absurd hxid.symm hne
      · rw [h1]
        refine ⟨rfl, List.mem_append_right _ (List.mem_singleton.2 rfl), ?_⟩
        intro x hx hxid
        rcases List.mem_append.1 hx with h2 | h2
        · have := hcov x h2
          rw [hxid, hfind] at this
          simp at this
        · rw [List.mem_singleton.1 h2]
    · intro x hx
      rcases List.mem_append.1 hx with h2 | h2
      · by_cases he : x.measure_id = line.measure_id
        · rw [he, assocFind_assocSet_self]
          rfl
        · rw [assocFind_assocSet_ne _ _ he]
          exact hcov x h2
      · rw [List.mem_singleton.1 h2, assocFind_assocSet_self]
        rfl
  · have hcmem : (line.measure_id, cur) ∈ seen := mem_of_assocFind_eq_some hfind
    obtain ⟨hca, hcb, hcc⟩ := hval _ hcmem
    have hstep : seenStep seen line =
        if line.timestamp_sec < cur.timestamp_sec then
          assocSet seen line.measure_id line
        else seen := by
      rw [seenStep, hfind]
    rw [hstep]
    by_cases hlt : line.timestamp_sec < cur.timestamp_sec
    · rw [if_pos hlt]
      refine ⟨keys_assocSet_nodup _ _ hnd, ?_, ?_⟩
      · intro kv hkv
        rcases mem_assocSet_nodup hnd hkv with ⟨h1, h2⟩ | h1
        · obtain ⟨ha, hb, hc⟩ := hval kv h1
          refine ⟨ha, List.mem_append_left _ hb, ?_⟩
          intro x hx hxid
          rcases List.mem_append.1 hx with h3 | h3
          · exact hc x h3 hxid
          · rw [List.mem_singleton.1 h3] at hxid
            exact absurd hxid.symm h2
        · rw [h1]
          refine ⟨rfl, List.mem_append_right _ (List.mem_singleton.2 rfl), ?_⟩
          intro x hx hxid
          rcases List.mem_append.1 hx with h3 | h3
          · exact le_of_lt (lt_of_lt_of_le hlt (hcc x h3 hxid))
          · rw [List.mem_singleton.1 h3]
      · intro x hx
        rcases List.mem_append.1 hx with h2 | h2
        · by_cases he : x.measure_id = line.measure_id
          · rw [he, assocFind_assocSet_self]
            rfl
          · rw [assocFind_assocSet_ne _ _ he]
            exact hcov x h2
        · rw [List.mem_singleton.1 h2, assocFind_assocSet_self]
          rfl
    · rw [if_neg hlt]
      refine ⟨hnd, ?_, ?_⟩
      · intro kv hkv
        obtain ⟨ha, hb, hc⟩ := hval kv hkv
        refine ⟨ha, List.mem_append_left _ hb, ?_⟩
        intro x hx hxid
        rcases List.mem_append.1 hx with h3 | h3
        · exact hc x h3 hxid
        · rw [List.mem_singleton.1 h3] at hxid ⊢
          have hkeq : kv.1 = line.measure_id := hxid.symm
          have : assocFind seen kv.1 = some kv.2 := by
            have hp : (kv.1, kv.2) ∈ seen := by
              rcases kv with ⟨k0, v0⟩
              exact hkv
            exact assocFind_eq_of_mem_nodup hnd hp
          rw [hkeq, hfind] at this
          have hveq : kv.2 = cur := by
            injection this with hv2
            exact hv2.symm
          rw [hveq]
          exact le_of_not_lt hlt
      · intro x hx
        rcases List.mem_append.1 hx with h2 | h2
        · exact hcov x h2
        · rw [List.mem_singleton.1 h2, hfind]
          rfl

theorem foldl_seenStep_inv (ms : List MeasureEntry) :
    ∀ ps seen, SeenInv ps seen → SeenInv (ps ++ ms) (ms.foldl seenStep seen) := by
  induction ms with
  | nil =>
      intro ps seen h
      simpa using h
  | cons m rest ih =>
      intro ps seen h
      have h2 := ih (ps ++ [m]) _ (seenStep_inv m h)
      simpa [List.append_assoc] using h2

theorem seen_invariant (ms : List MeasureEntry) :
    SeenInv ms (ms.foldl seenStep []) := by
  have h0 : SeenInv [] ([] : List (String × MeasureEntry)) := by
    refine ⟨by simp, by simp, by simp⟩
  simpa using foldl_seenStep_inv ms [] [] h0

theorem filter_map_snd_eq_singleton (seen : List (String × MeasureEntry))
    (mid : String) (v : MeasureEntry)
    (hnd : (seen.map Prod.fst).Nodup)
    (hmid : ∀ kv ∈ seen, kv.2.measure_id = kv.1)
    (hfind : assocFind seen mid = some v) :
    (seen.map Prod.snd).filter (fun e => e.measure_id == mid) = [v] := by
  induction seen with
  | nil => simp [assocFind] at hfind
  | cons p rest ih =>
      obtain ⟨k, w⟩ := p
      simp only [List.map_cons, List.nodup_cons] at hnd
      have hw : w.measure_id = k := hmid (k, w) (List.mem_cons_self _ _)
      by_cases hk : k = mid
      · rw [assocFind, if_pos hk] at hfind
        have hwv : w = v := by injection hfind
        rw [List.map_cons, List.filter_cons]
        have hcond : (w.measure_id == mid) = true := by
          rw [hw, hk]
          exact beq_self_eq_true mid
        rw [if_pos hcond, hwv]
        have : (rest.map Prod.snd).filter (fun e => e.measure_id == mid) = [] := by
          rw [List.filter_eq_nil_iff]
          intro e he
          rcases List.mem_map.1 he with ⟨kv, hkv, hsnd⟩
          have h1 : e.measure_id = kv.1 := hsnd ▸ hmid kv (List.mem_cons_of_mem _ hkv)
          have h2 : kv.1 ≠ mid := by
            intro he2
            exact hnd.1 (hk ▸ he2 ▸ List.mem_map.2 ⟨kv, hkv, rfl⟩)
          simp [h1, h2]
        rw [this]
      · rw [assocFind, if_neg hk] at hfind
        rw [List.map_cons, List.filter_cons]
        have hcond : (w.measure_id == mid) = false := by
          rw [hw]
          exact beq_eq_false_iff_ne.2 hk
        rw [if_neg (by simp [hcond])]
        exact ih hnd.2 (fun kv hkv => hmid kv (List.mem_cons_of_mem _ hkv)) hfind

/-- Claim C6: for every `measure_id` occurring in the input, the
reduction's output retains exactly one entry with that id; that entry
is one of the input rows and its `timestamp_sec` is a minimum over all
input rows sharing the id (so it is ≤ any other row's timestamp). -/
theorem measure_reduction_min (ms : List MeasureEntry) (mid : String)
    (h : ∃ x ∈ ms, x.measure_id = mid) :
    ∃ e, e ∈ ms ∧ e.measure_id = mid ∧
      (∀ x ∈ ms, x.measure_id = mid → e.timestamp_sec ≤ x.timestamp_sec) ∧
      (filter_measures_by_tstamp ms).filter (fun x => x.measure_id == mid) = [e] := by
  obtain ⟨hnd, hval, hcov⟩ := seen_invariant ms
  obtain ⟨x, hx, hxmid⟩ := h
  have hsome := hcov x hx
  rw [hxmid] at hsome
  obtain ⟨v, hv⟩ := Option.isSome_iff_exists.1 hsome
  have hvmem : (mid, v) ∈ ms.foldl seenStep [] := mem_of_assocFind_eq_some hv
  obtain ⟨hvmid, hvin, hvmin⟩ := hval (mid, v) hvmem
  refine ⟨v, hvin, hvmid, hvmin, ?_⟩
  have hperm : (filter_measures_by_tstamp ms).Perm
      ((ms.foldl seenStep []).map Prod.snd) :=
    List.mergeSort_perm _ measureLE
  have hfilter := filter_map_snd_eq_singleton (ms.foldl seenStep []) mid v hnd
    (fun kv hkv => (hval kv hkv).1) hv
  have hpf := hperm.filter (fun e => e.measure_id == mid)
  rw [hfilter] at hpf
  exact List.perm_singleton.1 hpf

/-- Witness for C6: two rows share measure id `m1`; the output keeps
exactly the one with the smaller timestamp. -/
theorem measure_reduction_min_witness :
    ∃ e, e ∈ [(⟨1, "m1", 5⟩ : MeasureEntry), ⟨1, "m1", 3⟩] ∧
      e.measure_id = "m1" ∧
      (∀ x ∈ [(⟨1, "m1", 5⟩ : MeasureEntry), ⟨1, "m1", 3⟩],
        x.measure_id = "m1" → e.timestamp_sec ≤ x.timestamp_sec) ∧
      (filter_measures_by_tstamp [⟨1, "m1", 5⟩, ⟨1, "m1", 3⟩]).filter
          (fun x => x.measure_id == "m1") = [e] :=
  measure_reduction_min [⟨1, "m1", 5⟩, ⟨1, "m1", 3⟩] "m1"
    ⟨⟨1, "m1", 5⟩, by simp, rfl⟩


/-! ## Score Chromagram Builder (src/mei.py:60-107)

`_meico_to_chroma` scans all `note`/`rest` elements carrying a
`midi.dur` attribute, recording pitch (`None` for rests), onset date
and duration; computes the shortest duration (grid step) and highest
end date; allocates a `12 × int(highest_date / shortest_duration)`
matrix; adds `1` to row `pitch % 12` over columns
`[floor(date/sd), min(ceil((date+dur)/sd), width))` for every note;
and normalizes the matrix with `librosa.util.normalize` (default
arguments: infinity norm along `axis=0`, i.e. per **column**). -/

/-- One `note` or `rest` element of the meico-expanded document.
`midiDur = none` models the absence of the `midi.dur` attribute (the
XPath of src/mei.py:76 skips such elements); `pnum = none` models a
rest. -/
structure ScoreElement where
  identifier : String
  pnum : Option Int
  date : Nat
  midiDur : Option Nat
deriving DecidableEq, Repr

/-- The record stored per identifier in `notes_and_rests`
(src/mei.py:84-87). -/
structure NoteOrRest where
  pitch : Option Int
  date : Nat
  dur : Nat
deriving DecidableEq, Repr

/-- Accumulator of the extraction loop of src/mei.py:70-90.
`shortest = none` models the `np.inf` starting value. -/
structure ScanState where
  shortest : Option Nat
  highest : Nat
  nar : List (String × NoteOrRest)
deriving DecidableEq, Repr

/-- Loop body of src/mei.py:76-90: skip elements without `midi.dur`;
otherwise store the element in `notes_and_rests` (dict assignment) and
update the running shortest duration and highest end date. -/
def scanStep (s : ScanState) (e : ScoreElement) : ScanState :=
  match e.midiDur with
  | none => s
  | some d =>
      { shortest := some (match s.shortest with
          | none => d
          | some m => min m d),
        highest := max s.highest (e.date + d),
        nar := assocSet s.nar e.identifier ⟨e.pnum, e.date, d⟩ }

/-- The extraction loop over all selected elements. -/
def scanScore (es : List ScoreElement) : ScanState :=
  es.foldl scanStep ⟨none, 0, []⟩

/-- `begin = math.floor(date / shortest_duration)` (src/mei.py:98);
on integer ticks this is `Nat` division. -/
def beginIndex (sd : Nat) (n : NoteOrRest) : Nat := n.date / sd

/-- `end = math.ceil((date + dur) / shortest_duration)` (src/mei.py:101);
on integer ticks with `sd > 0` this is `(date + dur + (sd - 1)) / sd`. -/
def endIndex (sd : Nat) (n : NoteOrRest) : Nat :=
  (n.date + n.dur + (sd - 1)) / sd

theorem beginIndex_eq_floor (sd : Nat) (n : NoteOrRest) :
    beginIndex sd n = Nat.floor ((n.date : ℚ) / sd) := by
  rw [beginIndex, Nat.floor_div_nat, Nat.floor_natCast]

/-- `(a + (b - 1)) / b` is the ceiling of the rational `a / b`. -/
theorem nat_ceil_div (a b : Nat) (hb : 0 < b) :
    Nat.ceil ((a : ℚ) / b) = (a + (b - 1)) / b := by
  have hmod := Nat.div_add_mod (a + (b - 1)) b
  have hr : (a + (b - 1)) % b < b := Nat.mod_lt _ hb
  have hbq : (0 : ℚ) < (b : ℚ) := by exact_mod_cast hb
  apply le_antisymm
  · apply Nat.ceil_le.2
    rw [div_le_iff₀ hbq]
    have hle : a ≤ b * ((a + (b - 1)) / b) := by omega
    have hle2 : a ≤ (a + (b - 1)) / b * b := by
      rw [Nat.mul_comm]
      exact hle
    exact_mod_cast hle2
  · rcases Nat.eq_zero_or_pos ((a + (b - 1)) / b) with h0 | hpos
    · rw [h0]
      exact Nat.zero_le _
    · have hbase : b ≤ b * ((a + (b - 1)) / b) :=
        Nat.le_mul_of_pos_right b hpos
      have hlt : ((a + (b - 1)) / b - 1) * b < a := by
        have hsub : ((a + (b - 1)) / b - 1) * b = b * ((a + (b - 1)) / b) - b := by
          rw [Nat.sub_mul, one_mul, Nat.mul_comm]
        omega
      have hq : ((((a + (b - 1)) / b - 1 : ℕ)) : ℚ) < (a : ℚ) / b := by
        rw [lt_div_iff₀ hbq]
        exact_mod_cast hlt
      have := Nat.lt_ceil.2 hq
      omega

theorem endIndex_eq_ceil (sd : Nat) (hsd : 0 < sd) (n : NoteOrRest) :
    endIndex sd n = Nat.ceil (((n.date + n.dur : Nat) : ℚ) / sd) := by
  rw [endIndex, nat_ceil_div _ _ hsd]

/-- Note-energy accumulation of src/mei.py:100-103: a note adds `1`
to row `pitch % 12` over columns `[begin, min(end, width))`; a rest
adds nothing. -/
def addEnergy (width sd : Nat) (M : Nat → Nat → Nat) (n : NoteOrRest) :
    Nat → Nat → Nat :=
  match n.pitch with
  | none => M
  | some p => fun i j =>
      if i = (p % 12).toNat ∧ beginIndex sd n ≤ j ∧ j < min (endIndex sd n) width
      then M i j + 1
      else M i j

/-- The raw (pre-normalization) chroma matrix, as counts
(src/mei.py:93-103): start from zeros and add every note's energy. -/
def rawChroma (width sd : Nat) (nar : List (String × NoteOrRest)) :
    Nat → Nat → Nat :=
  nar.foldl (fun M kv => addEnergy width sd M kv.2) (fun _ _ => 0)

/-- Maximum entry of column `j` over the 12 pitch-class rows (entries
are nonnegative counts, so this is the max absolute value). -/
def colMax (M : Nat → Nat → Nat) (j : Nat) : Nat :=
  (List.range 12).foldl (fun m i => max m (M i j)) 0

/-- `librosa.util.normalize(chroma_matrix)` (src/mei.py:105) with the
library's default arguments `norm=np.inf, axis=0, threshold=tiny,
fill=None`: each **column** is divided by its maximum absolute entry;
a column whose maximum is below the threshold — here exactly the
all-zero columns, as entries are integer counts — is left unchanged. -/
def normalize (M : Nat → Nat → Nat) : Nat → Nat → ℚ :=
  fun i j =>
    if colMax M j = 0 then (M i j : ℚ)
    else (M i j : ℚ) / (colMax M j : ℚ)

/-- Result of `_meico_to_chroma`: the normalized matrix (12 rows,
`width` columns, as an entry function) and `id_to_chroma_index`. -/
structure ChromaResult where
  width : Nat
  entry : Nat → Nat → ℚ
  idToIndex : List (String × Nat)

/-- `_meico_to_chroma` (src/mei.py:60-107).  `none` models the
`ZeroDivisionError` Python raises at src/mei.py:93 when some
qualifying duration is `0` (the float quotient `highest / 0.0`
raises); with no qualifying element at all, `shortest_duration` stays
`np.inf` and `int(0 / inf) = 0`, so a 12×0 matrix and an empty index
map are returned. -/
def meico_to_chroma (es : List ScoreElement) : Option ChromaResult :=
  match (scanScore es).shortest with
  | none => some ⟨0, normalize (fun _ _ => 0), []⟩
  | some 0 => none
  | some sd =>
      some ⟨(scanScore es).highest / sd,
        normalize (rawChroma ((scanScore es).highest / sd) sd (scanScore es).nar),
        (scanScore es).nar.map (fun kv => (kv.1, beginIndex sd kv.2))⟩

/-! ### Generic facts about folded maxima -/

theorem foldl_max_map {α β : Type} [LinearOrder β] (f : α → β) (l : List α) (a : β) :
    l.foldl (fun m x => max m (f x)) a = (l.map f).foldl max a := by
  induction l generalizing a with
  | nil => rfl
  | cons x rest ih => simp [List.foldl_cons, ih]

theorem le_foldl_max {β : Type} [LinearOrder β] (l : List β) (a : β) :
    a ≤ l.foldl max a := by
  induction l generalizing a with
  | nil => exact le_refl a
  | cons x rest ih => exact le_trans (le_max_left a x) (ih (max a x))

theorem mem_le_foldl_max {β : Type} [LinearOrder β] {x : β} {l : List β} (h : x ∈ l)
    (a : β) : x ≤ l.foldl max a := by
  induction l generalizing a with
  | nil => simp at h
  | cons y rest ih =>
      rcases List.mem_cons.1 h with h1 | h1
      · subst h1
        exact le_trans (le_max_right a x) (le_foldl_max rest (max a x))
      · exact ih h1 (max a y)

theorem foldl_max_le {β : Type} [LinearOrder β] {l : List β} {a c : β} (ha : a ≤ c)
    (h : ∀ x ∈ l, x ≤ c) : l.foldl max a ≤ c := by
  induction l generalizing a with
  | nil => exact ha
  | cons x rest ih =>
      refine ih (max_le ha (h x (List.mem_cons_self _ _))) ?_
      intro y hy
      exact h y (List.mem_cons_of_mem _ hy)

theorem foldl_max_eq_init_or_mem {β : Type} [LinearOrder β] (l : List β) (a : β) :
    l.foldl max a = a ∨ l.foldl max a ∈ l := by
  induction l generalizing a with
  | nil => exact Or.inl rfl
  | cons x rest ih =>
      rcases ih (max a x) with h | h
      · rcases max_cases a x with ⟨hm, _⟩ | ⟨hm, _⟩
        · exact Or.inl (by rw [List.foldl_cons, h, hm])
        · exact Or.inr (by rw [List.foldl_cons, h, hm]; exact List.mem_cons_self _ _)
      · exact Or.inr (List.mem_cons_of_mem _ h)

/-! ### Facts about the extraction scan -/

theorem scanStep_shortest_isSome {s : ScanState} (e : ScoreElement)
    (h : s.shortest.isSome) : ((scanStep s e).shortest).isSome := by
  rcases hd : e.midiDur with _ | d
  · rw [scanStep, hd]
    exact h
  · rw [scanStep, hd]
    rfl

theorem foldl_scan_shortest_isSome (es : List ScoreElement) :
    ∀ s : ScanState, s.shortest.isSome →
      ((es.foldl scanStep s).shortest).isSome := by
  induction es with
  | nil => intro s h; exact h
  | cons e rest ih =>
      intro s h
      exact ih _ (scanStep_shortest_isSome e h)

theorem scan_shortest_isSome (es : List ScoreElement)
    (h : ∃ e ∈ es, e.midiDur.isSome) :
    ((scanScore es).shortest).isSome := by
  rw [scanScore]
  induction es with
  | nil =>
      obtain ⟨e, he, _⟩ := h
      simp at he
  | cons e rest ih =>
      rw [List.foldl_cons]
      rcases hd : e.midiDur with _ | d
      · have hstep : scanStep ⟨none, 0, []⟩ e = ⟨none, 0, []⟩ := by
          rw [scanStep, hd]
        rw [hstep]
        obtain ⟨e0, he0, hdur⟩ := h
        rcases List.mem_cons.1 he0 with h1 | h1
        · rw [h1, hd] at hdur
          simp at hdur
        · exact ih ⟨e0, h1, hdur⟩
      · refine foldl_scan_shortest_isSome rest _ ?_
        simp only [scanStep, hd]
        rfl

theorem foldl_scan_shortest_mem (es : List ScoreElement) :
    ∀ (s : ScanState) (m : Nat), (es.foldl scanStep s).shortest = some m →
      s.shortest = some m ∨ ∃ e ∈ es, e.midiDur = some m := by
  induction es with
  | nil =>
      intro s m h
      exact Or.inl h
  | cons e rest ih =>
      intro s m h
      rw [List.foldl_cons] at h
      rcases ih _ m h with h1 | h1
      · rcases hd : e.midiDur with _ | d
        · rw [scanStep, hd] at h1
          exact Or.inl h1
        · simp only [scanStep, hd] at h1
          rcases hs : s.shortest with _ | m0
          · rw [hs] at h1
            have h2 : d = m := by simpa using h1
            exact Or.inr ⟨e, List.mem_cons_self _ _, by rw [hd, h2]⟩
          · rw [hs] at h1
            have h2 : min m0 d = m := by simpa using h1
            rcases min_choice m0 d with hmin | hmin
            · refine Or.inl ?_
              rw [← h2, hmin]
            · exact Or.inr ⟨e, List.mem_cons_self _ _, by rw [hd, ← h2, hmin]⟩
      · obtain ⟨e0, he0, hd0⟩ := h1
        exact Or.inr ⟨e0, List.mem_cons_of_mem _ he0, hd0⟩

theorem foldl_scan_shortest_mono (es : List ScoreElement) :
    ∀ (s : ScanState) (m : Nat), s.shortest = some m →
      ∃ sd, (es.foldl scanStep s).shortest = some sd ∧ sd ≤ m := by
  induction es with
  | nil =>
      intro s m h
      exact ⟨m, h, le_refl m⟩
  | cons e rest ih =>
      intro s m h
      rw [List.foldl_cons]
      rcases hd : e.midiDur with _ | d
      · have hstep : (scanStep s e).shortest = some m := by
          rw [scanStep, hd]
          exact h
        exact ih _ m hstep
      · have hstep : (scanStep s e).shortest = some (min m d) := by
          simp only [scanStep, hd, h]
        obtain ⟨sd, h1, h2⟩ := ih _ (min m d) hstep
        exact ⟨sd, h1, le_trans h2 (min_le_left m d)⟩

theorem foldl_scan_shortest_le (es : List ScoreElement) :
    ∀ (s : ScanState) (sd : Nat), (es.foldl scanStep s).shortest = some sd →
      ∀ e ∈ es, ∀ d, e.midiDur = some d → sd ≤ d := by
  induction es with
  | nil =>
      intro s sd _ e he
      simp at he
  | cons e rest ih =>
      intro s sd hfold e' he' d hd'
      rw [List.foldl_cons] at hfold
      rcases List.mem_cons.1 he' with h1 | h1
      · subst h1
        have hv : ∃ v, (scanStep s e').shortest = some v ∧ v ≤ d := by
          rcases hs : s.shortest with _ | m0
          · refine ⟨d, ?_, le_refl d⟩
            simp only [scanStep, hd', hs]
          · refine ⟨min m0 d, ?_, min_le_right m0 d⟩
            simp only [scanStep, hd', hs]
        obtain ⟨v, hv1, hv2⟩ := hv
        obtain ⟨sd', h1, h2⟩ := foldl_scan_shortest_mono rest _ v hv1
        rw [hfold] at h1
        injection h1 with h1
        rw [h1]
        exact le_trans h2 hv2
      · exact ih _ sd hfold e' h1 d hd'

theorem scanStep_highest_mono (s : ScanState) (e : ScoreElement) :
    s.highest ≤ (scanStep s e).highest := by
  rcases hd : e.midiDur with _ | d
  · rw [scanStep, hd]
  · simp only [scanStep, hd]
    exact le_max_left _ _

theorem foldl_scan_highest_mono (es : List ScoreElement) :
    ∀ s : ScanState, s.highest ≤ (es.foldl scanStep s).highest := by
  induction es with
  | nil => intro s; exact le_refl _
  | cons e rest ih =>
      intro s
      exact le_trans (scanStep_highest_mono s e) (ih (scanStep s e))

theorem foldl_scan_highest_ge (es : List ScoreElement) :
    ∀ s : ScanState, ∀ e ∈ es, ∀ d, e.midiDur = some d →
      e.date + d ≤ (es.foldl scanStep s).highest := by
  induction es with
  | nil =>
      intro s e he
      simp at he
  | cons e rest ih =>
      intro s e' he' d hd'
      rw [List.foldl_cons]
      rcases List.mem_cons.1 he' with h1 | h1
      · subst h1
        refine le_trans ?_ (foldl_scan_highest_mono rest (scanStep s e'))
        simp only [scanStep, hd']
        exact le_max_right _ _
      · exact ih _ e' h1 d hd'

theorem foldl_scan_nar_mem (es : List ScoreElement) :
    ∀ (s : ScanState) (kv : String × NoteOrRest), kv ∈ (es.foldl scanStep s).nar →
      kv ∈ s.nar ∨ ∃ e ∈ es, ∃ d, e.midiDur = some d ∧
        kv = (e.identifier, ⟨e.pnum, e.date, d⟩) := by
  induction es with
  | nil =>
      intro s kv h
      exact Or.inl h
  | cons e rest ih =>
      intro s kv h
      rw [List.foldl_cons] at h
      rcases ih _ kv h with h1 | h1
      · rcases hd : e.midiDur with _ | d
        · rw [scanStep, hd] at h1
          exact Or.inl h1
        · simp only [scanStep, hd] at h1
          rcases mem_assocSet h1 with h2 | h2
          · exact Or.inl h2
          · exact Or.inr ⟨e, List.mem_cons_self _ _, d, hd, h2⟩
      · obtain ⟨e0, he0, d, hd0, hkv⟩ := h1
        exact Or.inr ⟨e0, List.mem_cons_of_mem _ he0, d, hd0, hkv⟩

theorem foldl_scan_nar_eq (es : List ScoreElement) :
    ∀ s : ScanState,
      ((es.filter (fun e => e.midiDur.isSome)).map ScoreElement.identifier).Nodup →
      (∀ e ∈ es, e.midiDur.isSome = true → assocFind s.nar e.identifier = none) →
      (es.foldl scanStep s).nar =
        s.nar ++ (es.filter (fun e => e.midiDur.isSome)).map
          (fun e => (e.identifier, (⟨e.pnum, e.date, e.midiDur.getD 0⟩ : NoteOrRest))) := by
  induction es with
  | nil =>
      intro s _ _
      simp
  | cons e rest ih =>
      intro s hnd hfresh
      rw [List.foldl_cons]
      rcases hd : e.midiDur with _ | d
      · have hstep : scanStep s e = s := by
          rw [scanStep, hd]
        have hfil : (e :: rest).filter (fun e => e.midiDur.isSome) =
            rest.filter (fun e => e.midiDur.isSome) := by
          rw [List.filter_cons, hd]
          simp
        rw [hstep, hfil]
        rw [hfil] at hnd
        refine ih s hnd ?_
        intro e' he' hq
        exact hfresh e' (List.mem_cons_of_mem _ he') hq
      · have hfil : (e :: rest).filter (fun e => e.midiDur.isSome) =
            e :: rest.filter (fun e => e.midiDur.isSome) := by
          rw [List.filter_cons, hd]
          simp
        rw [hfil] at hnd
        rw [List.map_cons, List.nodup_cons] at hnd
        have hfind : assocFind s.nar e.identifier = none :=
          hfresh e (List.mem_cons_self _ _) (by rw [hd]; rfl)
        have hstep : (scanStep s e).nar =
            s.nar ++ [(e.identifier, (⟨e.pnum, e.date, d⟩ : NoteOrRest))] := by
          simp only [scanStep, hd]
          exact assocSet_of_find_none _ hfind
        have hih := ih (scanStep s e) hnd.2 ?_
        · rw [hih, hstep, hfil, List.map_cons]
          rw [List.append_assoc]
          simp [hd]
        · intro e' he' hq
          rw [hstep, assocFind_append]
          rw [hfresh e' (List.mem_cons_of_mem _ he') hq, Option.none_or]
          have hne : e.identifier ≠ e'.identifier := by
            intro he
            refine hnd.1 ?_
            rw [he]
            refine List.mem_map.2 ⟨e', ?_, rfl⟩
            rw [List.mem_filter]
            exact ⟨he', hq⟩
          simp [assocFind, hne]

/-! ### Reduction equations for the builder -/

/-- Builder equation for a present, positive shortest duration. -/
theorem meico_to_chroma_eq_some {es : List ScoreElement} {sd : Nat}
    (hsd : (scanScore es).shortest = some sd) (hpos : 0 < sd) :
    meico_to_chroma es =
      some ⟨(scanScore es).highest / sd,
        normalize (rawChroma ((scanScore es).highest / sd) sd (scanScore es).nar),
        (scanScore es).nar.map (fun kv => (kv.1, beginIndex sd kv.2))⟩ := by
  unfold meico_to_chroma
  rw [hsd]
  cases sd with
  | zero => omega
  | succ k => rfl

/-- Builder equation for the no-qualifying-element case. -/
theorem meico_to_chroma_eq_empty {es : List ScoreElement}
    (hsd : (scanScore es).shortest = none) :
    meico_to_chroma es = some ⟨0, normalize (fun _ _ => 0), []⟩ := by
  unfold meico_to_chroma
  rw [hsd]

/-! ### Column normalization facts -/

theorem colMax_ge_entry (M : Nat → Nat → Nat) (j : Nat) {i : Nat} (hi : i < 12) :
    M i j ≤ colMax M j := by
  rw [colMax, foldl_max_map]
  exact mem_le_foldl_max (x := M i j) (l := (List.range 12).map (fun i => M i j))
    (List.mem_map.2 ⟨i, List.mem_range.2 hi, rfl⟩) 0

theorem colMax_attained (M : Nat → Nat → Nat) (j : Nat) (h : colMax M j ≠ 0) :
    ∃ i, i < 12 ∧ M i j = colMax M j := by
  have hrw : colMax M j = ((List.range 12).map (fun i => M i j)).foldl max 0 := by
    rw [colMax, foldl_max_map]
  rcases foldl_max_eq_init_or_mem ((List.range 12).map (fun i => M i j)) 0 with h1 | h1
  · exact absurd (hrw.trans h1) h
  · rw [hrw]
    rcases List.mem_map.1 h1 with ⟨i, hi, hEq⟩
    exact ⟨i, List.mem_range.1 hi, hEq⟩

/-- Maximum absolute value of column `j` of an entry function over the
12 pitch-class rows. -/
def colAbsMaxF (f : Nat → Nat → ℚ) (j : Nat) : ℚ :=
  (List.range 12).foldl (fun m i => max m |f i j|) 0

/-- Maximum absolute value of column `j` of the result matrix. -/
def colAbsMax (r : ChromaResult) (j : Nat) : ℚ :=
  colAbsMaxF r.entry j

/-- Maximum absolute value of row `i` of the result matrix over its
`width` columns. -/
def rowAbsMax (r : ChromaResult) (i : Nat) : ℚ :=
  (List.range r.width).foldl (fun m j => max m |r.entry i j|) 0

/-- Row `i` of the result matrix is entirely zero. -/
def rowIsZero (r : ChromaResult) (i : Nat) : Prop :=
  ∀ j < r.width, r.entry i j = 0

/-- `librosa.util.normalize` with infinity norm along `axis=0`: every
column of the normalized matrix has max absolute value 1 or is all
zero. -/
theorem normalize_colAbsMaxF (M : Nat → Nat → Nat) (j : Nat) :
    colAbsMaxF (normalize M) j = 1 ∨ ∀ i < 12, normalize M i j = 0 := by
  by_cases h0 : colMax M j = 0
  · right
    intro i hi
    have hMi : M i j = 0 :=
      Nat.le_zero.1 (h0 ▸ colMax_ge_entry M j hi)
    simp [normalize, h0, hMi]
  · left
    have hpos : (0 : ℚ) < (colMax M j : ℚ) := by
      exact_mod_cast Nat.pos_of_ne_zero h0
    rw [colAbsMaxF, foldl_max_map]
    apply le_antisymm
    · refine foldl_max_le zero_le_one ?_
      intro x hx
      rcases List.mem_map.1 hx with ⟨i, hi, rfl⟩
      have hle : (M i j : ℚ) ≤ (colMax M j : ℚ) := by
        exact_mod_cast colMax_ge_entry M j (List.mem_range.1 hi)
      have hent : normalize M i j = (M i j : ℚ) / (colMax M j : ℚ) := by
        simp only [normalize, if_neg h0]
      rw [hent, abs_of_nonneg (div_nonneg (Nat.cast_nonneg _) (le_of_lt hpos)),
        div_le_one hpos]
      exact hle
    · obtain ⟨i0, hi0, hmax⟩ := colMax_attained M j h0
      have hval : |normalize M i0 j| = 1 := by
        simp only [normalize, if_neg h0, hmax]
        rw [div_self (ne_of_gt hpos)]
        exact abs_one
      calc (1 : ℚ) = |normalize M i0 j| := hval.symm
        _ ≤ _ := mem_le_foldl_max (x := |normalize M i0 j|)
            (l := (List.range 12).map (fun i => |normalize M i j|))
            (List.mem_map.2 ⟨i0, List.mem_range.2 hi0, rfl⟩) 0

/-! ### Concrete inputs used in counterexamples and witnesses -/

/-- Three simultaneous unit-duration notes with pitch classes 0, 1, 1
(pitch 13 ≡ 1 mod 12): one column, column vector (1, 2, 0, …). -/
def exC1 : List ScoreElement :=
  [⟨"a", some 0, 0, some 1⟩, ⟨"b", some 1, 0, some 1⟩, ⟨"c", some 13, 0, some 1⟩]

/-- Two notes with durations 2 and 3: shortest duration 2, highest end
date 5, so `5 / 2` exercises the floor-vs-ceil difference. -/
def exC2 : List ScoreElement :=
  [⟨"a", some 0, 0, some 2⟩, ⟨"b", some 0, 2, some 3⟩]

/-- A note, a rest (both with `midi.dur`), and a note without
`midi.dur` (not qualifying). -/
def exC5 : List ScoreElement :=
  [⟨"a", some 60, 0, some 2⟩, ⟨"r", none, 2, some 2⟩, ⟨"x", some 50, 4, none⟩]

/-- A single element without `midi.dur`: no qualifying elements. -/
def exEmpty : List ScoreElement := [⟨"x", some 60, 0, none⟩]

/-! ### Claim C2: column count -/

/-- The column count as the spec's words give it (for claim C2):
`ceil(highest_end_tick / shortest_duration_tick)`.  This definition
follows the spec text, to be compared with the code's `int(...)`
truncation. -/
def specColumnCount (es : List ScoreElement) : Option Nat :=
  match (scanScore es).shortest with
  | none => none
  | some sd => some (Nat.ceil (((scanScore es).highest : ℚ) / sd))

/-- Counterexample for C2 as stated: on `exC2` the code's matrix has
`int(5 / 2) = 2` columns, while `ceil(5 / 2) = 3`. -/
theorem chroma_width_counterexample :
    ∃ r, meico_to_chroma exC2 = some r ∧ r.width = 2 ∧
      specColumnCount exC2 = some 3 ∧ r.width ≠ 3 := by
  refine ⟨_, rfl, rfl, ?_, by decide⟩
  have h1 : (scanScore exC2).shortest = some 2 := rfl
  have h2 : (scanScore exC2).highest = 5 := rfl
  unfold specColumnCount
  rw [h1, h2]
  show some (Nat.ceil (((5 : ℕ) : ℚ) / ((2 : ℕ) : ℚ))) = some 3
  rw [nat_ceil_div 5 2 (by norm_num)]

/-- Claim C2 (amended): for a non-empty qualifying collection with a
positive shortest duration, the matrix has
`int(highest_end_tick / shortest_duration_tick)` columns — the
**floor** of the quotient (Python `int()` truncation of the float
division), not the ceiling. -/
theorem chroma_width_floor (es : List ScoreElement) (sd : Nat)
    (hsd : (scanScore es).shortest = some sd) (hpos : 0 < sd) :
    ∃ r, meico_to_chroma es = some r ∧
      r.width = (scanScore es).highest / sd ∧
      r.width = Nat.floor (((scanScore es).highest : ℚ) / sd) := by
  refine ⟨_, meico_to_chroma_eq_some hsd hpos, rfl, ?_⟩
  rw [Nat.floor_div_nat, Nat.floor_natCast]

/-- Witness for the amended C2, at the concrete score `exC2`. -/
theorem chroma_width_floor_witness :
    ∃ r, meico_to_chroma exC2 = some r ∧
      r.width = (scanScore exC2).highest / 2 ∧
      r.width = Nat.floor (((scanScore exC2).highest : ℚ) / (2 : ℕ)) :=
  chroma_width_floor exC2 2 rfl (by norm_num)

/-! ### Claim C3: behavior on an empty score -/

/-- Counterexample for C3 as stated: on a score with no qualifying
element the builder does not fail — it returns a result (an empty
12×0 matrix and an empty identifier map). -/
theorem empty_score_counterexample :
    ∃ r, meico_to_chroma exEmpty = some r ∧ r.width = 0 ∧ r.idToIndex = [] :=
  ⟨_, rfl, rfl, rfl⟩

/-- Claim C3 (amended): when the input has no qualifying
(duration-bearing) element, `shortest_duration` stays `np.inf`, the
width is `int(0 / inf) = 0`, and the builder **returns** a 12×0
all-zero chromagram with an empty identifier map instead of failing
(the spec itself flags `EmptyScoreError` as a recommended addition,
not legacy behavior). -/
theorem empty_score_returns (es : List ScoreElement)
    (h : ∀ e ∈ es, e.midiDur = none) :
    ∃ r, meico_to_chroma es = some r ∧ r.width = 0 ∧ r.idToIndex = [] ∧
      ∀ i j, r.entry i j = 0 := by
  have hscan : (scanScore es).shortest = none := by
    rw [scanScore]
    induction es with
    | nil => rfl
    | cons e rest ih =>
        rw [List.foldl_cons]
        have hstep : scanStep ⟨none, 0, []⟩ e = ⟨none, 0, []⟩ := by
          rw [scanStep, h e (List.mem_cons_self _ _)]
        rw [hstep]
        exact ih (fun e' he' => h e' (List.mem_cons_of_mem _ he'))
  refine ⟨_, meico_to_chroma_eq_empty hscan, rfl, rfl, ?_⟩
  intro i j
  have hc : colMax (fun _ _ => 0) j = 0 := by
    rw [colMax, foldl_max_map]
    refine Nat.le_zero.1 (foldl_max_le (le_refl 0) ?_)
    intro x hx
    rcases List.mem_map.1 hx with ⟨i', _, rfl⟩
    exact le_refl 0
  simp [normalize, hc]

/-- Witness for the amended C3, at the concrete score `exEmpty`. -/
theorem empty_score_returns_witness :
    ∃ r, meico_to_chroma exEmpty = some r ∧ r.width = 0 ∧ r.idToIndex = [] ∧
      ∀ i j, r.entry i j = 0 :=
  empty_score_returns exEmpty (by decide)

/-! ### Claim C5: the identifier → column-index map -/

/-- Claim C5: under the data-model invariants (unique identifiers
among qualifying elements; positive shortest duration, without which
the Python code raises `ZeroDivisionError` before building the map),
the returned `id_to_chroma_index` has exactly one entry per
duration-bearing element — notes and rests alike, in scan order —
mapping its identifier to `floor(onset / shortest_duration_tick)`;
elements without a `midi.dur` attribute never contribute a key. -/
theorem id_index_map_exact (es : List ScoreElement) (sd : Nat)
    (hsd : (scanScore es).shortest = some sd) (hpos : 0 < sd)
    (hnd : ((es.filter (fun e => e.midiDur.isSome)).map ScoreElement.identifier).Nodup) :
    ∃ r, meico_to_chroma es = some r ∧
      r.idToIndex.map Prod.fst =
        (es.filter (fun e => e.midiDur.isSome)).map ScoreElement.identifier ∧
      ∀ e ∈ es, ∀ d, e.midiDur = some d →
        assocFind r.idToIndex e.identifier =
          some (Nat.floor ((e.date : ℚ) / sd)) := by
  have hnar : (scanScore es).nar =
      (es.filter (fun e => e.midiDur.isSome)).map
        (fun e => (e.identifier, (⟨e.pnum, e.date, e.midiDur.getD 0⟩ : NoteOrRest))) := by
    rw [scanScore]
    have := foldl_scan_nar_eq es ⟨none, 0, []⟩ hnd (fun _ _ _ => rfl)
    simpa using this
  refine ⟨_, meico_to_chroma_eq_some hsd hpos, ?_, ?_⟩
  · rw [hnar, List.map_map, List.map_map]
    rfl
  · intro e he d hd
    have hqual : e ∈ es.filter (fun e => e.midiDur.isSome) :=
      List.mem_filter.2 ⟨he, by rw [hd]; rfl⟩
    have hmem : (e.identifier, beginIndex sd (⟨e.pnum, e.date, e.midiDur.getD 0⟩ : NoteOrRest)) ∈
        (scanScore es).nar.map (fun kv => (kv.1, beginIndex sd kv.2)) := by
      rw [hnar, List.map_map]
      exact List.mem_map.2 ⟨e, hqual, rfl⟩
    have hkeys : (((scanScore es).nar.map
        (fun kv => (kv.1, beginIndex sd kv.2))).map Prod.fst).Nodup := by
      rw [hnar, List.map_map, List.map_map]
      exact hnd
    have hfind := assocFind_eq_of_mem_nodup hkeys hmem
    rw [hfind]
    have hb : beginIndex sd (⟨e.pnum, e.date, e.midiDur.getD 0⟩ : NoteOrRest) =
        Nat.floor ((e.date : ℚ) / sd) := by
      rw [beginIndex_eq_floor]
    rw [hb]

/-- Witness for C5, at the concrete score `exC5` (a note, a rest,
and a duration-less element). -/
theorem id_index_map_exact_witness :
    ∃ r, meico_to_chroma exC5 = some r ∧
      r.idToIndex.map Prod.fst =
        (exC5.filter (fun e => e.midiDur.isSome)).map ScoreElement.identifier ∧
      ∀ e ∈ exC5, ∀ d, e.midiDur = some d →
        assocFind r.idToIndex e.identifier =
          some (Nat.floor ((e.date : ℚ) / (2 : ℕ))) :=
  id_index_map_exact exC5 2 rfl (by norm_num) (by decide)

/-! ### Claim C10: stored indices stay in bounds -/

/-- Claim C10: if at least one qualifying element exists and every
qualifying duration is strictly positive, then every column index in
the returned identifier map satisfies `index < width`, and for every
scanned element the note-energy slice
`[begin, min(end, width))` stays inside the matrix: its start is below
the width and its clamped end never exceeds the width. -/
theorem chroma_indices_in_bounds (es : List ScoreElement)
    (hne : ∃ e ∈ es, e.midiDur.isSome)
    (hdur : ∀ e ∈ es, ∀ d, e.midiDur = some d → 0 < d) :
    ∃ sd r, (scanScore es).shortest = some sd ∧ meico_to_chroma es = some r ∧
      (∀ kv ∈ r.idToIndex, kv.2 < r.width) ∧
      (∀ kv ∈ (scanScore es).nar,
        beginIndex sd kv.2 < r.width ∧ min (endIndex sd kv.2) r.width ≤ r.width) := by
  obtain ⟨sd, hsd⟩ := Option.isSome_iff_exists.1 (scan_shortest_isSome es hne)
  have hsd' : (es.foldl scanStep ⟨none, 0, []⟩).shortest = some sd := by
    rw [← scanScore]
    exact hsd
  have hpos : 0 < sd := by
    rcases foldl_scan_shortest_mem es ⟨none, 0, []⟩ sd hsd' with h1 | h1
    · simp at h1
    · obtain ⟨e, he, hd⟩ := h1
      exact hdur e he sd hd
  have hbound : ∀ kv ∈ (scanScore es).nar,
      beginIndex sd kv.2 < (scanScore es).highest / sd := by
    intro kv hkv
    have hkv' : kv ∈ (es.foldl scanStep ⟨none, 0, []⟩).nar := by
      rw [← scanScore]
      exact hkv
    rcases foldl_scan_nar_mem es ⟨none, 0, []⟩ kv hkv' with h1 | h1
    · simp at h1
    · obtain ⟨e, he, d, hd, hkveq⟩ := h1
      have hsdle : sd ≤ d := foldl_scan_shortest_le es ⟨none, 0, []⟩ sd hsd' e he d hd
      have hhigh : e.date + d ≤ (es.foldl scanStep ⟨none, 0, []⟩).highest :=
        foldl_scan_highest_ge es ⟨none, 0, []⟩ e he d hd
      have hhigh' : e.date + d ≤ (scanScore es).highest := by
        rw [scanScore]
        exact hhigh
      have hdm : kv.2.date = e.date := by
        rw [hkveq]
      rw [beginIndex, hdm]
      have hmul : e.date / sd * sd ≤ e.date := Nat.div_mul_le_self e.date sd
      have hstep : e.date / sd + 1 ≤ (scanScore es).highest / sd := by
        rw [Nat.le_div_iff_mul_le hpos]
        have : (e.date / sd + 1) * sd = e.date / sd * sd + sd := by ring
        omega
      omega
  refine ⟨sd, _, hsd, meico_to_chroma_eq_some hsd hpos, ?_, ?_⟩
  · intro kv hkv
    rcases List.mem_map.1 hkv with ⟨kv0, hkv0, hkveq⟩
    have := hbound kv0 hkv0
    rw [← hkveq] at *
    exact this
  · intro kv hkv
    exact ⟨hbound kv hkv, min_le_right _ _⟩

/-- Witness for C10, at the concrete score `exC5`. -/
theorem chroma_indices_in_bounds_witness :
    ∃ sd r, (scanScore exC5).shortest = some sd ∧ meico_to_chroma exC5 = some r ∧
      (∀ kv ∈ r.idToIndex, kv.2 < r.width) ∧
      (∀ kv ∈ (scanScore exC5).nar,
        beginIndex sd kv.2 < r.width ∧ min (endIndex sd kv.2) r.width ≤ r.width) :=
  chroma_indices_in_bounds exC5 (by decide)
    (by
      intro e he d hd
      fin_cases he <;> simp_all <;> omega)

/-! ### Claim C1: which axis is normalized -/

/-- Builder equation for a zero shortest duration
(Python raises `ZeroDivisionError`). -/
theorem meico_to_chroma_eq_zero_sd {es : List ScoreElement}
    (hsd : (scanScore es).shortest = some 0) :
    meico_to_chroma es = none := by
  unfold meico_to_chroma
  rw [hsd]

/-- The `notes_and_rests` dictionary of `exC1`, written out. -/
def narC1 : List (String × NoteOrRest) :=
  [("a", ⟨some 0, 0, 1⟩), ("b", ⟨some 1, 0, 1⟩), ("c", ⟨some 13, 0, 1⟩)]

/-- The builder's output on `exC1`, evaluated. -/
theorem meico_exC1_eval :
    meico_to_chroma exC1 =
      some ⟨1, normalize (rawChroma 1 1 narC1), [("a", 0), ("b", 0), ("c", 0)]⟩ := by
  have hsd : (scanScore exC1).shortest = some 1 := by decide
  have heq := meico_to_chroma_eq_some hsd Nat.one_pos
  have hh : (scanScore exC1).highest = 1 := by decide
  have hn : (scanScore exC1).nar = narC1 := by decide
  rw [hh, hn] at heq
  rw [show (1 : ℕ) / 1 = 1 from rfl] at heq
  rw [show narC1.map (fun kv => (kv.1, beginIndex 1 kv.2)) =
      [("a", 0), ("b", 0), ("c", 0)] from by decide] at heq
  exact heq

/-- Counterexample for C1 as stated: on `exC1` (one column holding
counts 1 and 2 in rows 0 and 1), `librosa.util.normalize`'s default
`axis=0` divides the **column** by its max 2, leaving row 0 with a
maximum of 1/2: the row is neither all-zero nor of maximum absolute
value 1. -/
theorem chroma_row_normalization_counterexample :
    ∃ r, meico_to_chroma exC1 = some r ∧
      rowAbsMax r 0 ≠ 1 ∧ ¬rowIsZero r 0 := by
  have hent : normalize (rawChroma 1 1 narC1) 0 0 = 1 / 2 := by
    have hM00 : rawChroma 1 1 narC1 0 0 = 1 := by decide
    have hcm : colMax (rawChroma 1 1 narC1) 0 = 2 := by decide
    simp only [normalize, hcm, hM00]
    norm_num
  refine ⟨_, meico_exC1_eval, ?_, ?_⟩
  · simp only [rowAbsMax]
    rw [show List.range 1 = [0] from by decide]
    simp only [List.foldl_cons, List.foldl_nil]
    rw [hent, abs_of_nonneg (by norm_num : (0:ℚ) ≤ 1/2),
      max_eq_right (by norm_num : (0:ℚ) ≤ 1/2)]
    norm_num
  · intro hz
    have h2 : normalize (rawChroma 1 1 narC1) 0 0 = 0 := hz 0 (by decide)
    rw [hent] at h2
    norm_num at h2

/-- Claim C1 (amended): the normalization of src/mei.py:105 is per
**column** (librosa's default `axis=0`), not per row: in every matrix
the builder returns, each column `j < width` either has maximum
absolute value exactly 1 over the 12 pitch-class rows or is entirely
zero. -/
theorem chroma_columns_normalized (es : List ScoreElement) (r : ChromaResult)
    (h : meico_to_chroma es = some r) (j : Nat) (hj : j < r.width) :
    colAbsMax r j = 1 ∨ ∀ i < 12, r.entry i j = 0 := by
  have hM : ∃ M : Nat → Nat → Nat, r.entry = normalize M := by
    rcases hs : (scanScore es).shortest with _ | sd
    · rw [meico_to_chroma_eq_empty hs] at h
      injection h with h
      exact ⟨(fun _ _ => 0), by rw [← h]⟩
    · cases sd with
      | zero =>
          rw [meico_to_chroma_eq_zero_sd hs] at h
          simp at h
      | succ k =>
          rw [meico_to_chroma_eq_some hs (Nat.succ_pos k)] at h
          injection h with h
          exact ⟨_, by rw [← h]⟩
  obtain ⟨M, hMe⟩ := hM
  rw [colAbsMax, hMe]
  exact normalize_colAbsMaxF M j

/-- Witness for the amended C1, at the concrete score `exC1` and its
single column. -/
theorem chroma_columns_normalized_witness :
    ∃ r, meico_to_chroma exC1 = some r ∧
      (colAbsMax r 0 = 1 ∨ ∀ i < 12, r.entry i 0 = 0) :=
  ⟨_, meico_exC1_eval,
    chroma_columns_normalized exC1 _ meico_exC1_eval 0 (by decide)⟩

end AudioMei
